/-
Verification of the versioncheck repository's version model, resolution
algorithm, usage path normalization and check orchestrator.

The development shallowly embeds the TypeScript sources:
  * src/version.ts   — Version variants (Commit / Nixpkgs channel / Semantic),
                       makeVersion classification, compare / satisfies / equivalent
  * src/fetchers.ts  — fetchVersion resolution (filter, sort, versionSpec match)
  * src/index.ts     — checkVersion orchestrator (outdated / errored computation)
  * src/usage.ts     — normalizePaths alias fixpoint loop

Pure functions are translated directly; the process-level async structure
(Promise.allSettled) is represented by passing each task's settled outcome
(`Except`) explicitly.  The external semver dependency
(deno.land/x/semver@v1.4.0, a port of node-semver) is modelled executably in
the `Semver` namespace to the fidelity needed by the version strings that
occur in this development; comments note the library behaviour each function
mirrors.
-/
import Mathlib

set_option maxHeartbeats 1000000

namespace Versioncheck

/-! ## Model of the external semver dependency -/

/-- A semver prerelease identifier: node-semver stores identifiers that look
numeric as numbers and the rest as strings (`compareIdentifiers` then orders
numeric identifiers before alphanumeric ones). -/
inductive PreId where
  | num (n : Nat)
  | str (s : String)
deriving DecidableEq, Repr

/-- A parsed semantic version.  Build metadata is accepted by the parser but
discarded: node-semver's `SemVer.version` rendering and `compare` both ignore
it. -/
structure SemVer where
  major : Nat
  minor : Nat
  patch : Nat
  pre : List PreId
deriving DecidableEq, Repr

namespace Semver

/-- JS `String.prototype.trim` whitespace (the ASCII part; the version strings
in this development contain none). -/
def isJsWhitespace (c : Char) : Bool :=
  c = ' ' || c = '\t' || c = '\n' || c = '\r' || c = '\x0b' || c = '\x0c'

def trimChars (cs : List Char) : List Char :=
  ((cs.dropWhile isJsWhitespace).reverse.dropWhile isJsWhitespace).reverse

def digitsToNat (cs : List Char) : Nat :=
  cs.foldl (fun n c => n * 10 + (c.toNat - 48)) 0

/-- semver `NUMERICIDENTIFIER` (`0|[1-9]\d*`): a maximal digit run with no
leading zero.  Returns the value and the unconsumed remainder. -/
def parseNumericId (cs : List Char) : Option (Nat × List Char) :=
  let run := cs.takeWhile Char.isDigit
  let rest := cs.dropWhile Char.isDigit
  if run.isEmpty then none
  else if run.length > 1 && run.head? = some '0' then none
  else some (digitsToNat run, rest)

/-- Characters allowed in prerelease/build identifiers: `[0-9A-Za-z-]`. -/
def isIdChar (c : Char) : Bool := c.isAlphanum || c = '-'

/-- semver `PRERELEASEIDENTIFIER`: numeric (no leading zero) or alphanumeric
(must contain a non-digit). -/
def parsePreId (cs : List Char) : Option (PreId × List Char) :=
  let run := cs.takeWhile isIdChar
  let rest := cs.dropWhile isIdChar
  if run.isEmpty then none
  else if run.all Char.isDigit then
    if run.length > 1 && run.head? = some '0' then none
    else some (.num (digitsToNat run), rest)
  else some (.str (String.mk run), rest)

/-- Further `.`-separated prerelease identifiers.  The fuel is an upper bound
on the iteration count (each step consumes at least two characters), so the
`0` case is never reached from `parseSemVerChars`. -/
def parseMorePreIds : Nat → List Char → Option (List PreId × List Char)
  | 0, cs => some ([], cs)
  | fuel + 1, cs =>
    match cs with
    | '.' :: rest =>
      match parsePreId rest with
      | some (i, rest2) =>
        match parseMorePreIds fuel rest2 with
        | some (is, rest3) => some (i :: is, rest3)
        | none => none
      | none => none
    | _ => some ([], cs)

/-- Optional `-prerelease` part of the strict grammar. -/
def parsePreOpt (cs : List Char) : Option (List PreId × List Char) :=
  match cs with
  | '-' :: rest =>
    match parsePreId rest with
    | some (i, rest2) =>
      match parseMorePreIds rest2.length rest2 with
      | some (is, rest3) => some (i :: is, rest3)
      | none => none
    | none => none
  | _ => some ([], cs)

/-- semver `BUILDIDENTIFIER` (`[0-9A-Za-z-]+`, leading zeros allowed); the
identifier itself is discarded. -/
def parseBuildId (cs : List Char) : Option (List Char) :=
  let run := cs.takeWhile isIdChar
  if run.isEmpty then none else some (cs.dropWhile isIdChar)

def parseMoreBuildIds : Nat → List Char → Option (List Char)
  | 0, cs => some cs
  | fuel + 1, cs =>
    match cs with
    | '.' :: rest =>
      match parseBuildId rest with
      | some rest2 => parseMoreBuildIds fuel rest2
      | none => none
    | _ => some cs

/-- Optional `+build` part; accepted and discarded. -/
def parseBuildOpt (cs : List Char) : Option (List Char) :=
  match cs with
  | '+' :: rest =>
    match parseBuildId rest with
    | some rest2 => parseMoreBuildIds rest2.length rest2
    | none => none
  | _ => some cs

/-- Strict parse, node-semver `parse` with `loose = false`: trim, optional
single `v`, `MAJOR.MINOR.PATCH` numeric identifiers, optional prerelease and
build parts, end of string. -/
def parseSemVerChars (cs0 : List Char) : Option SemVer := do
  let cs := trimChars cs0
  let cs := match cs with
    | 'v' :: rest => rest
    | _ => cs
  let (major, cs) ← parseNumericId cs
  let cs ← match cs with
    | '.' :: rest => some rest
    | _ => none
  let (minor, cs) ← parseNumericId cs
  let cs ← match cs with
    | '.' :: rest => some rest
    | _ => none
  let (patch, cs) ← parseNumericId cs
  let (pre, cs) ← parsePreOpt cs
  let cs ← parseBuildOpt cs
  if cs.isEmpty then pure ⟨major, minor, patch, pre⟩ else none

def parseSemVer (s : String) : Option SemVer :=
  parseSemVerChars s.data

/-- After a `.`, a further digit run of length 1..16 for the optional
minor/patch groups of the `COERCE` pattern; on failure the input is returned
unconsumed (the group is simply unmatched). -/
def tryDotRun (cs : List Char) : Option (List Char) × List Char :=
  match cs with
  | '.' :: rest =>
    let run := rest.takeWhile Char.isDigit
    if run.isEmpty || run.length > 16 then (none, cs)
    else (some run, rest.dropWhile Char.isDigit)
  | _ => (none, cs)

/-- One attempt of the `COERCE` pattern
`(^|[^\d])(\d{1,16})(?:\.(\d{1,16}))?(?:\.(\d{1,16}))?($|[^\d])` at a
position whose boundary condition already holds and whose head is a digit.
Maximal digit runs make the trailing `$|[^\d]` automatic. -/
def coerceAt (cs : List Char) : Option (List Char × Option (List Char) × Option (List Char)) :=
  let run := cs.takeWhile Char.isDigit
  if run.isEmpty || run.length > 16 then none
  else
    let rest := cs.dropWhile Char.isDigit
    match tryDotRun rest with
    | (none, _) => some (run, none, none)
    | (some m, rest2) =>
      match tryDotRun rest2 with
      | (p, _) => some (run, some m, p)

/-- Leftmost match of the `COERCE` pattern: scan for the first position that
is the start of the string or preceded by a non-digit and where the pattern
matches. -/
def coerceSearch (l : List Char) : Option (List Char × Option (List Char) × Option (List Char)) :=
  go l true
where
  go : List Char → Bool → Option (List Char × Option (List Char) × Option (List Char))
    | [], _ => none
    | c :: cs, boundary =>
      if boundary && c.isDigit then
        match coerceAt (c :: cs) with
        | some r => some r
        | none => go cs false
      else go cs (!c.isDigit)

/-- `noLeadZero` of a digit run: node-semver's `coerce` feeds the matched runs
back through the strict parser, which rejects leading zeros. -/
def noLeadZero (r : List Char) : Bool := r.length ≤ 1 || r.head? ≠ some '0'

/-- node-semver `coerce`: extract the first `MAJOR[.MINOR[.PATCH]]` digit
groups and build a plain version from them.  Note (quoting the comment in
src/version.ts): "coerce does not include prerelease tags", so the result
never carries a prerelease. -/
def coerceSemVerChars (cs : List Char) : Option SemVer :=
  match coerceSearch cs with
  | none => none
  | some (maj, minor, patch) =>
    if noLeadZero maj && (minor.map noLeadZero).getD true && (patch.map noLeadZero).getD true then
      some ⟨digitsToNat maj, (minor.map digitsToNat).getD 0, (patch.map digitsToNat).getD 0, []⟩
    else none

def coerceSemVer (s : String) : Option SemVer :=
  coerceSemVerChars s.data

def renderPreId : PreId → String
  | .num n => toString n
  | .str s => s

/-- `SemVer.version`: the canonical rendering (build metadata excluded). -/
def renderSemVer (v : SemVer) : String :=
  let base := toString v.major ++ "." ++ toString v.minor ++ "." ++ toString v.patch
  match v.pre with
  | [] => base
  | _ => base ++ "-" ++ String.intercalate "." (v.pre.map renderPreId)

/-- node-semver `clean`: strip leading `=`/`v` after trimming, strict-parse,
and return the canonical rendering. -/
def semverClean (s : String) : Option String :=
  let stripped := (trimChars s.data).dropWhile (fun c => c = '=' || c = 'v')
  (parseSemVerChars stripped).map renderSemVer

def natCmpInt (a b : Nat) : Int :=
  if a < b then -1 else if b < a then 1 else 0

def charCmpInt (a b : Char) : Int :=
  if a < b then -1 else if b < a then 1 else 0

/-- Lexicographic code-point comparison of strings; models both JS `<`/`>` on
strings (used by node-semver's `compareIdentifiers`) and
`String.prototype.localeCompare` (whose default deterministic collation the
specification describes as lexicographic). -/
def strCmpIntChars : List Char → List Char → Int
  | [], [] => 0
  | [], _ :: _ => -1
  | _ :: _, [] => 1
  | a :: as, b :: bs =>
    let c := charCmpInt a b
    if c = 0 then strCmpIntChars as bs else c

def strCmpInt (a b : String) : Int := strCmpIntChars a.data b.data

/-- node-semver `compareIdentifiers`. -/
def preIdCmpInt : PreId → PreId → Int
  | .num a, .num b => natCmpInt a b
  | .num _, .str _ => -1
  | .str _, .num _ => 1
  | .str a, .str b => strCmpInt a b

/-- The identifier-by-identifier loop of node-semver `comparePre`: within the
loop a shorter prerelease list that is a prefix of the other is smaller. -/
def preIdsCmpInt : List PreId → List PreId → Int
  | [], [] => 0
  | _ :: _, [] => 1
  | [], _ :: _ => -1
  | a :: as, b :: bs =>
    if preIdCmpInt a b = 0 then preIdsCmpInt as bs else preIdCmpInt a b

/-- node-semver `comparePre`: a version *with* a prerelease sorts below one
*without*, otherwise compare identifier lists. -/
def preCmpInt (a b : List PreId) : Int :=
  match a, b with
  | _ :: _, [] => -1
  | [], _ :: _ => 1
  | [], [] => 0
  | _ :: _, _ :: _ => preIdsCmpInt a b

/-- node-semver `compareMain`. -/
def mainCmpInt (a b : SemVer) : Int :=
  if natCmpInt a.major b.major ≠ 0 then natCmpInt a.major b.major
  else if natCmpInt a.minor b.minor ≠ 0 then natCmpInt a.minor b.minor
  else natCmpInt a.patch b.patch

/-- node-semver `compare`. -/
def semverCompareInt (a b : SemVer) : Int :=
  if mainCmpInt a b ≠ 0 then mainCmpInt a b else preCmpInt a.pre b.pre

/-- Split a character list at every `.` (the shape test for range strings). -/
def splitOnDot : List Char → List (List Char)
  | [] => [[]]
  | c :: cs =>
    if c = '.' then [] :: splitOnDot cs
    else
      match splitOnDot cs with
      | h :: t => (c :: h) :: t
      | [] => [[c]]

/-- Patch-wildcard range `M.m.x` (also `X`/`*`). -/
def parseXRange (spec : String) : Option (Nat × Nat) :=
  match splitOnDot spec.data with
  | [maj, minr, x] =>
    if (x = ['x'] || x = ['X'] || x = ['*'])
        && !maj.isEmpty && maj.all Char.isDigit
        && !minr.isEmpty && minr.all Char.isDigit then
      some (digitsToNat maj, digitsToNat minr)
    else none
  | _ => none

/-- Modelled fragment of node-semver `satisfies`: a patch-wildcard range
`M.m.x` admits exactly the versions with that major and minor and no
prerelease tag.  This is the only range shape exercised in this development;
other range strings are treated as unsatisfiable. -/
def semverSatisfies (v : SemVer) (spec : String) : Bool :=
  match parseXRange spec with
  | some (M, m) => v.major = M && v.minor = m && v.pre = []
  | none => false

end Semver

/-! ## The Version model (src/version.ts) -/

open Semver

/-- `cleanVersion` of src/version.ts: "Primarily, we want to strip the
leading `v` even for non-semver versions"
(`semver.clean(version) ?? version.replace(/^v([0-9])/, "$1")`). -/
def cleanVersion (s : String) : String :=
  match semverClean s with
  | some c => c
  | none =>
    match s.data with
    | 'v' :: c :: rest => if c.isDigit then String.mk (c :: rest) else s
    | _ => s

/-- The `SemanticVersion` class of src/version.ts (field values as computed
by its constructor). -/
structure SemanticVersion where
  semantic : SemVer
  main : String
  app : Option String
  prerelease : Bool
deriving DecidableEq, Repr

/-- The `SemanticVersion` constructor: strict parse, falling back to
`coerce`; a failure of both is the "could not be parsed as a version" error.
`main` (and `app`, when given) are cleaned; the `prerelease` flag defaults to
whether the parsed semantic value carries a prerelease component. -/
def mkSemanticVersion (main : String) (app : Option String) (prerelease : Option Bool) :
    Except String SemanticVersion :=
  match (parseSemVer main).orElse (fun _ => coerceSemVer main) with
  | none => .error ("'" ++ main ++ "' could not be parsed as a version")
  | some semantic =>
    .ok { semantic := semantic
          main := cleanVersion main
          app := app.map cleanVersion
          prerelease := prerelease.getD (decide (0 < semantic.pre.length)) }

/-- The closed `Version` union of src/version.ts: `CommitVersion`,
`NixpkgsVersion` (channel label plus embedded short commit hash) and
`SemanticVersion`. -/
inductive Version where
  | commit (main : String)
  | nixpkgs (main : String) (commit : String)
  | semantic (v : SemanticVersion)
deriving DecidableEq, Repr

/-- Models JS `String.prototype.startsWith`. -/
def strStartsWith (s p : String) : Bool := p.data.isPrefixOf s.data

namespace Version

/-- The `main` property of each variant. -/
def main : Version → String
  | .commit m => m
  | .nixpkgs m _ => m
  | .semantic v => v.main

/-- The `app` property (only the Semantic variant carries one). -/
def app : Version → Option String
  | .semantic v => v.app
  | _ => none

/-- The `prerelease` getter: `false` for the Commit and Nixpkgs variants. -/
def prerelease : Version → Bool
  | .commit _ => false
  | .nixpkgs _ _ => false
  | .semantic v => v.prerelease

/-- `compare`: Commit and Nixpkgs versions compare their `main` strings
(`localeCompare`); a Semantic version first compares semantic values against
another Semantic version and falls back to the `main` strings on a tie. -/
def compare (a b : Version) : Int :=
  match a with
  | .commit m => strCmpInt m b.main
  | .nixpkgs m _ => strCmpInt m b.main
  | .semantic v =>
    match b with
    | .semantic w =>
      if semverCompareInt v.semantic w.semantic ≠ 0 then semverCompareInt v.semantic w.semantic
      else strCmpInt v.main w.main
    | _ => strCmpInt v.main b.main

/-- `satisfies`: exact `main` equality for Commit and Nixpkgs versions,
`semver.satisfies` for Semantic ones. -/
def satisfies : Version → String → Bool
  | .commit m, spec => decide (m = spec)
  | .nixpkgs m _, spec => decide (m = spec)
  | .semantic v, spec => semverSatisfies v.semantic spec

/-- `equivalent`: `main` equality, except that a Nixpkgs (channel) version is
equivalent to a Commit version whose full hash starts with the channel's
embedded short hash — the one intentionally directional case. -/
def equivalent : Version → Version → Bool
  | .commit m, other => decide (m = other.main)
  | .nixpkgs m c, other =>
    match other with
    | .commit m2 => strStartsWith m2 c
    | _ => decide (m = other.main)
  | .semantic v, other => decide (v.main = other.main)

end Version

/-- `COMMIT_REGEX = /^[0-9a-f]{40}$/` of src/version.ts. -/
def isHexLower (c : Char) : Bool := c.isDigit || ('a' ≤ c && c ≤ 'f')

def commitTest (main : String) : Bool :=
  main.data.length = 40 && main.data.all isHexLower

/-- `\w` of the JS regex engine: `[A-Za-z0-9_]`. -/
def isWordOrDot (c : Char) : Bool := c.isAlphanum || c = '_' || c = '.'

/-- Split a character list at its last `.`; `none` when no dot occurs. -/
def splitAtLastDot (cs : List Char) : Option (List Char × List Char) :=
  let revCs := cs.reverse
  match revCs.dropWhile (fun c => c ≠ '.') with
  | '.' :: beforeRev =>
    some (beforeRev.reverse, (revCs.takeWhile (fun c => c ≠ '.')).reverse)
  | _ => none

/-- `NIXPKGS_REGEX = /^nixpkgs-[\w\.]+\.([\da-f]+)$/` of src/version.ts,
returning the captured short hash.  The greedy `[\w\.]+` forces the capturing
group to start after the *last* dot (a capture beginning at an earlier dot
would have to contain a dot, which `[\da-f]+` cannot), so the regex matches
exactly when the text after `nixpkgs-` splits at its last dot into a
non-empty `[\w.]` part and a non-empty lowercase-hex part. -/
def nixpkgsExec (main : String) : Option String :=
  let cs := main.data
  let tag : List Char := ['n', 'i', 'x', 'p', 'k', 'g', 's', '-']
  if tag.isPrefixOf cs then
    match splitAtLastDot (cs.drop 8) with
    | some (before, after) =>
      if !before.isEmpty && before.all isWordOrDot
          && !after.isEmpty && after.all isHexLower then
        some (String.mk after)
      else none
    | none => none
  else none

/-- `makeVersion` of src/version.ts: the nixpkgs channel pattern is tried
first, then the 40-hex commit pattern, and only other strings reach the
(fallible) `SemanticVersion` constructor. -/
def makeVersion (main : String) (app : Option String)
    (prerelease : Option Bool) : Except String Version :=
  match nixpkgsExec main with
  | some commit => .ok (.nixpkgs main commit)
  | none =>
    if commitTest main then .ok (.commit main)
    else (mkSemanticVersion main app prerelease).map Version.semantic

/-! ## The resolution algorithm (src/fetchers.ts, `fetchVersion`) -/

/-- The shared fields of `BaseFetchSchema` that drive resolution:
`versionSpec` (optional range constraint) and `prerelease`
(include prereleases, default `false`). -/
structure ResolveSpec where
  versionSpec : Option String
  prerelease : Bool
deriving DecidableEq, Repr

/-- The `FetchResult` interface:
`{ version: Version; latest?: Version; versions?: Version[] }`. -/
structure FetchResult where
  version : Version
  latest : Option Version
  versions : Option (List Version)
deriving DecidableEq, Repr

/-- What an adapter hands to `fetchVersion`.  `fetchVersion` dynamically
tests `Array.isArray`; in the current adapter set every adapter (including
`fetchGithubCommit`, which returns `[makeVersion(parsed.sha)]`) produces an
array, so the `single` branch is vestigial, but it is kept because the test
is in the source. -/
inductive AdapterOutput where
  | single (v : Version)
  | list (versions : List Version)
deriving DecidableEq, Repr

/-- The three failure messages of `fetchVersion` (each carries a
`stringifySpec` rendering of the spec, elided here):
"No versions found …", "No valid versions …", "No compatible version …". -/
inductive ResolveError where
  | noVersionsFound
  | noValidVersions
  | noCompatibleVersion
deriving DecidableEq, Repr

/-- The sort comparator handed to `Array.prototype.sort`:
`(a, b) => -a.compare(b)`.  An element `a` may precede `b` exactly when the
comparator is ≤ 0 on `(a, b)`, i.e. when `a.compare(b) ≥ 0` (descending,
newest first). -/
def jsLeV (a b : Version) : Bool := decide (0 ≤ Version.compare a b)

/-- Stable insertion of one element into a run already arranged by
`Array.prototype.sort`'s comparator order. -/
def orderedInsertV (x : Version) : List Version → List Version
  | [] => [x]
  | y :: ys => if jsLeV x y then x :: y :: ys else y :: orderedInsertV x ys

/-- Model of `validVersions.sort((a, b) => -a.compare(b))`:
`Array.prototype.sort` is a stable comparison sort (ES2019), modelled as a
stable insertion sort over the same comparator. -/
def jsSortVersions : List Version → List Version
  | [] => []
  | x :: xs => orderedInsertV x (jsSortVersions xs)

/-- `validVersions`: drop prerelease candidates unless `spec.prerelease`. -/
def validVersionsOf (spec : ResolveSpec) (versions : List Version) : List Version :=
  if spec.prerelease then versions
  else versions.filter (fun v => !v.prerelease)

/-- The pure core of `fetchVersion` (src/fetchers.ts:360‑397), applied to the
awaited adapter output: early-return for a non-array value; fail on an empty
candidate list; filter prereleases; fail if nothing is left; sort descending
by `compare`; `latest` is the head; the current version is the first sorted
candidate satisfying `versionSpec` (or `latest` when no spec is set), and its
absence is the "No compatible version" failure. -/
def fetchVersionCore (spec : ResolveSpec) (out : AdapterOutput) :
    Except ResolveError FetchResult :=
  match out with
  | .single v => .ok ⟨v, none, none⟩
  | .list versions =>
    if versions.isEmpty then .error .noVersionsFound
    else
      let validVersions := validVersionsOf spec versions
      if validVersions.isEmpty then .error .noValidVersions
      else
        match jsSortVersions validVersions with
        | [] => .error .noValidVersions
          -- dead branch: the sort of the non-empty `validVersions` is
          -- non-empty; the source indexes `validVersions[0]` directly
        | latest :: restSorted =>
          match spec.versionSpec with
          | some vspec =>
            match (latest :: restSorted).find? (fun v => v.satisfies vspec) with
            | some version => .ok ⟨version, some latest, some (latest :: restSorted)⟩
            | none => .error .noCompatibleVersion
          | none => .ok ⟨latest, some latest, some (latest :: restSorted)⟩

/-- The pure tail of `fetchGithubCommit` (src/fetchers.ts:149‑195): the
resolved `sha` of the response becomes a one-element candidate *list*,
`[makeVersion(parsed.sha)]`. -/
def fetchGithubCommitVersions (sha : String) : Except String (List Version) :=
  (makeVersion sha none none).map (fun v => [v])

/-! ## The check orchestrator (src/index.ts, `checkVersion`) -/

/-- The `CheckResult` interface of the orchestrator.  `outdated` is a JS
object built by in-order insertion of distinct usage keys, modelled as an
association list in insertion order. -/
structure CheckResult where
  name : String
  upstream : Option FetchResult
  outdated : List (String × Version)
  errored : List String
deriving DecidableEq, Repr

/-- The reported value for an outdated usage: when the upstream result
carries a full candidate list, the first candidate whose `main` equals the
usage's `main` replaces the usage's own version (`fullVersion ?? version`). -/
def reportVersion (u : FetchResult) (v : Version) : Version :=
  match u.versions with
  | some l => ((l.find? (fun c => decide (c.main = v.main))).getD v)
  | none => v

/-- The pure core of `checkVersion` (src/index.ts): `Promise.allSettled`
delivers every task's outcome independently, modelled by passing the settled
upstream outcome and the settled per-usage outcomes (keyed in usage order).
A rejected upstream leaves `upstream` null; fulfilled usages form `rest` and
rejected ones are recorded by key in `errored`; a usage is outdated exactly
when its `main` differs from the upstream current version's `main`. -/
def checkVersionCore (name : String) (upstreamResult : Except String FetchResult)
    (usageResults : List (String × Except String Version)) : CheckResult :=
  let upstreamVersion : Option FetchResult :=
    match upstreamResult with
    | .ok r => some r
    | .error _ => none
  let rest : List (String × Version) :=
    usageResults.filterMap (fun kr =>
      match kr.2 with
      | .ok v => some (kr.1, v)
      | .error _ => none)
  let errored : List String :=
    usageResults.filterMap (fun kr =>
      match kr.2 with
      | .ok _ => none
      | .error _ => some kr.1)
  let outdated : List (String × Version) :=
    match upstreamVersion with
    | none => []
    | some u =>
      rest.filterMap (fun kv =>
        if kv.2.main ≠ u.version.main then some (kv.1, reportVersion u kv.2)
        else none)
  ⟨name, upstreamVersion, outdated, errored⟩

/-! ## The path normalizer (src/usage.ts, `normalizePaths`, local branch) -/

/-- JS `String.prototype.replaceAll` with a non-empty string pattern:
replace non-overlapping occurrences left to right; a replacement is not
rescanned within the same call.  The fuel argument only bounds the recursion
(each step consumes at least one character, so `replaceAllChars` passes the
input length and the `0` case is unreachable). -/
def replaceAllFuel (p : Char) (ps repl : List Char) : Nat → List Char → List Char
  | _, [] => []
  | 0, s => s
  | fuel + 1, c :: cs =>
    if (p :: ps).isPrefixOf (c :: cs) then
      repl ++ replaceAllFuel p ps repl fuel (cs.drop ps.length)
    else
      c :: replaceAllFuel p ps repl fuel cs

/-- JS `String.prototype.replaceAll`; with an empty pattern the replacement
is inserted at every position (`"ab".replaceAll("", "X") = "XaXbX"`). -/
def replaceAllChars (s pat repl : List Char) : List Char :=
  match pat with
  | [] => repl ++ s.flatMap (fun c => c :: repl)
  | p :: ps => replaceAllFuel p ps repl s.length s

/-- One full pass of the alias table over the path: every alias is applied by
`replaceAll` in table order, and the loop flag records whether *any single*
application changed the string (the source sets `changed = true` per alias,
so a pass whose substitutions cancel out still counts as changed). -/
def aliasPass (aliases : List (String × String)) (p : List Char) : List Char × Bool :=
  aliases.foldl
    (fun acc kv =>
      let replaced := replaceAllChars acc.1 kv.1.data kv.2.data
      (replaced, acc.2 || decide (replaced ≠ acc.1)))
    (p, false)

/-- The `do … while (changed)` fixpoint loop of the local branch of
`normalizePaths`, with explicit fuel making the unbounded iteration
observable: `none` means the loop was still running when the fuel ran out.
The source loop has no bound at all, so divergence of this model for every
fuel is divergence of the source loop. -/
def normalizePathsLocal : Nat → List (String × String) → List Char → Option (List Char)
  | 0, _, _ => none
  | fuel + 1, aliases, p =>
    match aliasPass aliases p with
    | (p2, changed) =>
      if changed then normalizePathsLocal fuel aliases p2 else some p2

/-- The do/while loop never exits on this input, whatever bound is imposed. -/
def aliasLoopDiverges (aliases : List (String × String)) (p : List Char) : Prop :=
  ∀ fuel, normalizePathsLocal fuel aliases p = none

/-- "Sorted in descending compare order (newest first)": every element is
comparator-≥ every later element. -/
def descSorted (l : List Version) : Prop :=
  l.Pairwise (fun a b => jsLeV a b = true)

/-! Concrete values used to exercise the definitions. -/

/-- `makeVersion "nixpkgs-24.05.a1b2c3"`: a channel upstream version. -/
def chanUpstreamVersion : Version := .nixpkgs "nixpkgs-24.05.a1b2c3" "a1b2c3"

/-- An upstream `FetchResult` for the channel version. -/
def chanUpstream : FetchResult :=
  ⟨chanUpstreamVersion, some chanUpstreamVersion, some [chanUpstreamVersion]⟩

/-- A usage pinned to the full commit whose first six characters are the
channel's embedded short hash. -/
def chanUsageCommit : Version := .commit "a1b2c3dddddddddddddddddddddddddddddddddd"

/-- `makeVersion "2.1.0"`. -/
def v210 : Version := .semantic ⟨⟨2, 1, 0, []⟩, "2.1.0", none, false⟩

/-- `makeVersion "2.0.5"`. -/
def v205 : Version := .semantic ⟨⟨2, 0, 5, []⟩, "2.0.5", none, false⟩

/-- `makeVersion "2.0.1"`. -/
def v201 : Version := .semantic ⟨⟨2, 0, 1, []⟩, "2.0.1", none, false⟩

/-- The candidate list `["2.1.0", "2.0.5", "2.0.1"]` of the specification's
versionSpec example. -/
def exampleCandidates : List Version := [v210, v205, v201]

/-- A candidate list mixing prerelease and stable versions. -/
def prereleaseMix : List Version :=
  [.semantic ⟨⟨1, 3, 0, [PreId.str "rc", PreId.num 1]⟩, "1.3.0-rc.1", none, true⟩,
   .semantic ⟨⟨1, 2, 0, []⟩, "1.2.0", none, false⟩,
   .semantic ⟨⟨1, 1, 0, []⟩, "1.1.0", none, false⟩]

/-- `makeVersion "2.0.0"`. -/
def mixSemA : Version := .semantic ⟨⟨2, 0, 0, []⟩, "2.0.0", none, false⟩

/-- `makeVersion "10.0.0"`. -/
def mixSemB : Version := .semantic ⟨⟨10, 0, 0, []⟩, "10.0.0", none, false⟩

/-- A 40-character hex string (a plausible github tag), classified by
`makeVersion` as a Commit version. -/
def mixHash : String := "1aaaaaaaaaaaaaaaaaaaaaaaaaaaaaaaaaaaaaaa"

def mixCommit : Version := .commit mixHash

/-- A candidate list mixing Semantic and Commit variants, on which the sort
comparator is cyclic: semantically `2.0.0 < 10.0.0`, but as strings
`"10.0.0" < "1aaa…" < "2.0.0"`. -/
def mixedCandidates : List Version := [mixSemA, mixSemB, mixCommit]

/-- A 40-`a` commit sha. -/
def exampleSha : String := "aaaaaaaaaaaaaaaaaaaaaaaaaaaaaaaaaaaaaaaa"

/-- The `SemanticVersion` built from `"=1.2.3-alpha"`: strict parsing fails on
the `=`, so the constructor falls back to `coerce`, which drops the
prerelease tag — yet `clean` (which strips `=`/`v` itself) still produces the
full `"1.2.3-alpha"` as `main`. -/
def coercedAlpha : SemanticVersion := ⟨⟨1, 2, 3, []⟩, "1.2.3-alpha", none, false⟩

/-- The `SemanticVersion` built from `"1.2.3-alpha"` by strict parsing. -/
def strictAlpha : SemanticVersion :=
  ⟨⟨1, 2, 3, [PreId.str "alpha"]⟩, "1.2.3-alpha", none, true⟩

/-- The chained alias table of the specification's path example. -/
def exampleAliases : List (String × String) :=
  [("~org", "/data/org"), ("~base", "~org/shared")]

/-- A self-referential alias table: each pass rewrites `x` to `xx`. -/
def loopAliases : List (String × String) := [("x", "xx")]

end Versioncheck

deriving instance DecidableEq for Except

namespace Versioncheck

/-! ## Comparator facts -/

open Semver

theorem charCmpInt_self (a : Char) : charCmpInt a a = 0 := by
  simp [charCmpInt]

theorem strCmpIntChars_self (l : List Char) : strCmpIntChars l l = 0 := by
  induction l with
  | nil => rfl
  | cons a as ih => simp [strCmpIntChars, charCmpInt_self, ih]

theorem strCmpInt_self (s : String) : strCmpInt s s = 0 := strCmpIntChars_self s.data

theorem charCmpInt_swap (a b : Char) : charCmpInt b a = -charCmpInt a b := by
  unfold charCmpInt
  rcases lt_trichotomy a b with h | h | h
  · simp [h, not_lt.mpr h.le, h.ne']
  · simp [h, lt_irrefl]
  · simp [h, not_lt.mpr h.le, h.ne']

theorem strCmpIntChars_swap (l₁ l₂ : List Char) :
    strCmpIntChars l₂ l₁ = -strCmpIntChars l₁ l₂ := by
  induction l₁ generalizing l₂ with
  | nil => cases l₂ <;> simp [strCmpIntChars]
  | cons a as ih =>
    cases l₂ with
    | nil => simp [strCmpIntChars]
    | cons b bs =>
      simp only [strCmpIntChars]
      rw [charCmpInt_swap]
      by_cases h : charCmpInt a b = 0
      · simp [h, ih]
      · simp [h, neg_eq_zero]

theorem strCmpInt_swap (a b : String) : strCmpInt b a = -strCmpInt a b :=
  strCmpIntChars_swap a.data b.data

theorem natCmpInt_swap (a b : Nat) : natCmpInt b a = -natCmpInt a b := by
  unfold natCmpInt
  rcases Nat.lt_trichotomy a b with h | h | h
  · simp [h, Nat.not_lt.mpr h.le]
  · simp [h, Nat.lt_irrefl]
  · simp [h, Nat.not_lt.mpr h.le]

/-- A fallback chain `if c ≠ 0 then c else d` negates componentwise. -/
theorem ite_chain_neg {c d c' d' : Int} (hc : c' = -c) (hd : d' = -d) :
    (if c' ≠ 0 then c' else d') = -(if c ≠ 0 then c else d) := by
  subst hc
  subst hd
  by_cases h : c = 0 <;> simp [h]

theorem preIdCmpInt_swap (a b : PreId) : preIdCmpInt b a = -preIdCmpInt a b := by
  cases a <;> cases b
  · exact natCmpInt_swap _ _
  · show (1 : Int) = -(-1 : Int)
    norm_num
  · show (-1 : Int) = -(1 : Int)
    norm_num
  · exact strCmpInt_swap _ _

theorem preIdsCmpInt_swap (l₁ l₂ : List PreId) :
    preIdsCmpInt l₂ l₁ = -preIdsCmpInt l₁ l₂ := by
  induction l₁ generalizing l₂ with
  | nil =>
    cases l₂ with
    | nil => simp [preIdsCmpInt]
    | cons b bs =>
      show (1 : Int) = -(-1 : Int)
      norm_num
  | cons a as ih =>
    cases l₂ with
    | nil =>
      show (-1 : Int) = -(1 : Int)
      norm_num
    | cons b bs =>
      show (if preIdCmpInt b a = 0 then preIdsCmpInt bs as else preIdCmpInt b a) = _
      rw [preIdCmpInt_swap, ih]
      by_cases h : preIdCmpInt a b = 0 <;> simp [preIdsCmpInt, h]

theorem preCmpInt_swap (l₁ l₂ : List PreId) : preCmpInt l₂ l₁ = -preCmpInt l₁ l₂ := by
  cases l₁ with
  | nil =>
    cases l₂ with
    | nil => simp [preCmpInt]
    | cons b bs =>
      show (-1 : Int) = -(1 : Int)
      norm_num
  | cons a as =>
    cases l₂ with
    | nil =>
      show (1 : Int) = -(-1 : Int)
      norm_num
    | cons b bs => exact preIdsCmpInt_swap _ _

theorem mainCmpInt_swap (a b : SemVer) : mainCmpInt b a = -mainCmpInt a b := by
  unfold mainCmpInt
  exact ite_chain_neg (natCmpInt_swap _ _)
    (ite_chain_neg (natCmpInt_swap _ _) (natCmpInt_swap _ _))

theorem semverCompareInt_swap (a b : SemVer) :
    semverCompareInt b a = -semverCompareInt a b := by
  unfold semverCompareInt
  exact ite_chain_neg (mainCmpInt_swap _ _) (preCmpInt_swap _ _)

/-- `compare` is sign-antisymmetric on every pair of variants: although
mixed-variant comparisons take different code paths, each of them reduces to
the string comparison of the two `main`s. -/
theorem compare_swap (a b : Version) : Version.compare b a = -Version.compare a b := by
  cases a with
  | commit m =>
    cases b <;> exact strCmpInt_swap _ _
  | nixpkgs m c =>
    cases b <;> exact strCmpInt_swap _ _
  | semantic v =>
    cases b with
    | commit m2 => exact strCmpInt_swap _ _
    | nixpkgs m2 c2 => exact strCmpInt_swap _ _
    | semantic w =>
      show (if semverCompareInt w.semantic v.semantic ≠ 0 then
              semverCompareInt w.semantic v.semantic
            else strCmpInt w.main v.main) = _
      exact ite_chain_neg (semverCompareInt_swap _ _) (strCmpInt_swap _ _)

/-- The sort comparator is total. -/
theorem jsLeV_total (a b : Version) : jsLeV a b = true ∨ jsLeV b a = true := by
  unfold jsLeV
  rw [compare_swap]
  simp only [decide_eq_true_eq]
  omega

/-! ## Sorting facts -/

theorem orderedInsertV_perm (x : Version) (l : List Version) :
    (orderedInsertV x l).Perm (x :: l) := by
  induction l with
  | nil => exact List.Perm.refl _
  | cons y ys ih =>
    unfold orderedInsertV
    by_cases h : jsLeV x y
    · simp [h]
    · simp only [h, if_neg, Bool.false_eq_true, not_false_eq_true, ite_false]
      exact (ih.cons y).trans (List.Perm.swap x y ys)

theorem jsSortVersions_perm (l : List Version) : (jsSortVersions l).Perm l := by
  induction l with
  | nil => exact List.Perm.refl _
  | cons x xs ih =>
    exact (orderedInsertV_perm x (jsSortVersions xs)).trans (ih.cons x)

theorem mem_jsSortVersions {a : Version} {l : List Version} :
    a ∈ jsSortVersions l ↔ a ∈ l :=
  (jsSortVersions_perm l).mem_iff

theorem jsSortVersions_ne_nil {l : List Version} (h : l ≠ []) :
    jsSortVersions l ≠ [] := by
  intro hnil
  exact h (List.Perm.eq_nil ((jsSortVersions_perm l).symm.trans (hnil ▸ List.Perm.refl _)))

/-- Inserting into a run that is pairwise-descending stays pairwise-descending,
provided the comparator is transitive on the elements involved (it always is
totally defined and total; transitivity can fail across variants). -/
theorem pairwise_orderedInsertV (x : Version) (l : List Version)
    (hl : l.Pairwise (fun a b => jsLeV a b = true))
    (htr : ∀ a ∈ x :: l, ∀ b ∈ x :: l, ∀ c ∈ x :: l,
      jsLeV a b = true → jsLeV b c = true → jsLeV a c = true) :
    (orderedInsertV x l).Pairwise (fun a b => jsLeV a b = true) := by
  induction l with
  | nil => simp [orderedInsertV]
  | cons y ys ih =>
    rw [List.pairwise_cons] at hl
    unfold orderedInsertV
    by_cases h : jsLeV x y = true
    · simp only [h, ite_true]
      refine List.pairwise_cons.mpr ⟨?_, List.pairwise_cons.mpr ⟨hl.1, hl.2⟩⟩
      intro z hz
      rcases List.mem_cons.mp hz with hz | hz
      · subst hz
        exact h
      · exact htr x (by simp) y (by simp) z (by simp [hz]) h (hl.1 z hz)
    · simp only [h, ite_false]
      refine List.pairwise_cons.mpr ⟨?_, ?_⟩
      · intro z hz
        rcases List.mem_cons.mp ((orderedInsertV_perm x ys).mem_iff.mp hz) with hz' | hz'
        · rw [hz']
          rcases jsLeV_total x y with hxy | hyx
          · exact absurd hxy h
          · exact hyx
        · exact hl.1 z hz'
      · refine ih hl.2 ?_
        intro a ha b hb c hc
        have sub : ∀ z, z ∈ x :: ys → z ∈ x :: y :: ys := by
          intro z hz
          rcases List.mem_cons.mp hz with hz | hz
          · simp [hz]
          · simp [hz]
        exact htr a (sub a ha) b (sub b hb) c (sub c hc)

/-- The sort output is pairwise-descending whenever the comparator is
transitive on the input's elements. -/
theorem pairwise_jsSortVersions (l : List Version)
    (htr : ∀ a ∈ l, ∀ b ∈ l, ∀ c ∈ l,
      jsLeV a b = true → jsLeV b c = true → jsLeV a c = true) :
    (jsSortVersions l).Pairwise (fun a b => jsLeV a b = true) := by
  induction l with
  | nil => simp [jsSortVersions]
  | cons x xs ih =>
    unfold jsSortVersions
    have conv : ∀ z, z ∈ x :: jsSortVersions xs → z ∈ x :: xs := by
      intro z hz
      rcases List.mem_cons.mp hz with hz | hz
      · simp [hz]
      · simp [mem_jsSortVersions.mp hz]
    refine pairwise_orderedInsertV x (jsSortVersions xs) ?_ ?_
    · refine ih ?_
      intro a ha b hb c hc
      exact htr a (by simp [ha]) b (by simp [hb]) c (by simp [hc])
    · intro a ha b hb c hc
      exact htr a (conv a ha) b (conv b hb) c (conv c hc)


/-! ## Inverting the resolution algorithm -/

/-- Structure of every successful list-resolution: the sorted, filtered
candidate list is non-empty, `latest` is its head, `versions` is the whole
list, and the current version is either `latest` (no versionSpec) or the
`find?` result over the sorted list. -/
theorem fetchVersionCore_list_ok {spec : ResolveSpec} {vs : List Version} {r : FetchResult}
    (h : fetchVersionCore spec (.list vs) = .ok r) :
    ∃ latest rest, jsSortVersions (validVersionsOf spec vs) = latest :: rest ∧
      r.latest = some latest ∧ r.versions = some (latest :: rest) ∧
      ((spec.versionSpec = none ∧ r.version = latest) ∨
       (∃ σ, spec.versionSpec = some σ ∧
         (latest :: rest).find? (fun v => v.satisfies σ) = some r.version)) := by
  simp only [fetchVersionCore] at h
  split at h
  · exact absurd h (by simp)
  split at h
  · exact absurd h (by simp)
  split at h
  · exact absurd h (by simp)
  next latest rest heq =>
    split at h
    · next σ hv =>
        split at h
        · next version hf =>
            refine ⟨latest, rest, heq, ?_⟩
            simp only [Except.ok.injEq] at h
            rw [← h]
            exact ⟨rfl, rfl, Or.inr ⟨σ, hv, hf⟩⟩
        · exact absurd h (by simp)
    · next hv =>
        refine ⟨latest, rest, heq, ?_⟩
        simp only [Except.ok.injEq] at h
        rw [← h]
        exact ⟨rfl, rfl, Or.inl ⟨hv, rfl⟩⟩

/-- Every member of a successful resolution's sorted list is a filtered
candidate. -/
theorem mem_validVersionsOf {spec : ResolveSpec} {vs : List Version} {v : Version}
    (h : v ∈ validVersionsOf spec vs) (hpre : spec.prerelease = false) :
    v ∈ vs ∧ v.prerelease = false := by
  unfold validVersionsOf at h
  rw [hpre] at h
  simp only [Bool.false_eq_true, if_false, List.mem_filter, Bool.not_eq_eq_eq_not,
    Bool.not_true] at h
  exact h

/-! ## Claims -/

/-- **C2**: for every multi-candidate resolution with `versionSpec` set, the
current version returned by `fetchVersion` is the first (hence newest, in the
descending sorted order) candidate satisfying the spec via `satisfies`; when
no sorted candidate satisfies it the resolution fails with the "no compatible
version" error; with no `versionSpec` the current version equals `latest`.
Example: candidates `["2.1.0", "2.0.5", "2.0.1"]` with spec `"2.0.x"` yield
current `"2.0.5"` and latest `"2.1.0"`. -/
theorem C2_versionSpec_selects_newest :
    (∀ (spec : ResolveSpec) (vs : List Version) (σ : String) (r : FetchResult),
        spec.versionSpec = some σ →
        fetchVersionCore spec (.list vs) = .ok r →
        r.version.satisfies σ = true ∧
        ∃ l1 l2, jsSortVersions (validVersionsOf spec vs) = l1 ++ r.version :: l2 ∧
          ∀ v ∈ l1, v.satisfies σ = false) ∧
    (∀ (spec : ResolveSpec) (vs : List Version) (σ : String),
        spec.versionSpec = some σ →
        vs ≠ [] →
        validVersionsOf spec vs ≠ [] →
        (∀ v ∈ validVersionsOf spec vs, v.satisfies σ = false) →
        fetchVersionCore spec (.list vs) = .error .noCompatibleVersion) ∧
    (∀ (spec : ResolveSpec) (vs : List Version) (r : FetchResult),
        spec.versionSpec = none →
        fetchVersionCore spec (.list vs) = .ok r →
        r.latest = some r.version) ∧
    (fetchVersionCore ⟨some "2.0.x", false⟩ (.list exampleCandidates) =
        .ok ⟨v205, some v210, some [v210, v205, v201]⟩ ∧
      [makeVersion "2.1.0" none none, makeVersion "2.0.5" none none,
        makeVersion "2.0.1" none none] = exampleCandidates.map Except.ok) := by
  refine ⟨?_, ?_, ?_, by decide, by decide⟩
  · intro spec vs σ r hv h
    obtain ⟨latest, rest, hs, _, _, hcase⟩ := fetchVersionCore_list_ok h
    rcases hcase with ⟨hnone, _⟩ | ⟨σ', hv', hf⟩
    · rw [hnone] at hv
      exact absurd hv (by simp)
    · rw [hv] at hv'
      injection hv' with hσ
      rw [← hσ] at hf
      obtain ⟨hp, l1, l2, hdec, hfail⟩ := List.find?_eq_some.mp hf
      refine ⟨hp, l1, l2, by rw [hs, hdec], ?_⟩
      intro v hvmem
      have := hfail v hvmem
      simpa using this
  · intro spec vs σ hv hne hvne hall
    simp only [fetchVersionCore]
    split
    · next hemp => exact absurd (List.isEmpty_iff.mp hemp) hne
    split
    · next hemp => exact absurd (List.isEmpty_iff.mp hemp) hvne
    split
    · next hnil => exact absurd hnil (jsSortVersions_ne_nil hvne)
    next latest rest hs =>
      have hfnone : (latest :: rest).find? (fun v => v.satisfies σ) = none := by
        rw [List.find?_eq_none]
        intro v hvmem
        have : v ∈ validVersionsOf spec vs := mem_jsSortVersions.mp (hs ▸ hvmem)
        simp [hall v this]
      rw [hv]
      split
      next σ' heq =>
        rw [Option.some.injEq] at heq
        subst heq
        rw [hfnone]
      next heq => simp at heq
  · intro spec vs r hv h
    obtain ⟨latest, rest, _, hlat, _, hcase⟩ := fetchVersionCore_list_ok h
    rcases hcase with ⟨_, hver⟩ | ⟨σ, hv', _⟩
    · rw [hlat, hver]
    · rw [hv] at hv'
      exact absurd hv' (by simp)

/-- **C2** witness: the three general conjuncts instantiated on the concrete
example candidates. -/
theorem C2_versionSpec_selects_newest_witness :
    ((⟨some "2.0.x", false⟩ : ResolveSpec).versionSpec = some "2.0.x" ∧
      fetchVersionCore ⟨some "2.0.x", false⟩ (.list exampleCandidates) =
        .ok ⟨v205, some v210, some [v210, v205, v201]⟩ ∧
      ((⟨v205, some v210, some [v210, v205, v201]⟩ : FetchResult).version.satisfies "2.0.x" = true ∧
        ∃ l1 l2,
          jsSortVersions (validVersionsOf ⟨some "2.0.x", false⟩ exampleCandidates) =
            l1 ++ (⟨v205, some v210, some [v210, v205, v201]⟩ : FetchResult).version :: l2 ∧
          ∀ v ∈ l1, v.satisfies "2.0.x" = false)) ∧
    ((∀ v ∈ validVersionsOf ⟨some "9.9.x", false⟩ exampleCandidates,
        v.satisfies "9.9.x" = false) ∧
      fetchVersionCore ⟨some "9.9.x", false⟩ (.list exampleCandidates) =
        .error .noCompatibleVersion) ∧
    (fetchVersionCore ⟨none, false⟩ (.list exampleCandidates) =
        .ok ⟨v210, some v210, some [v210, v205, v201]⟩ ∧
      (⟨v210, some v210, some [v210, v205, v201]⟩ : FetchResult).latest =
        some (⟨v210, some v210, some [v210, v205, v201]⟩ : FetchResult).version) := by
  refine ⟨⟨rfl, by decide, ?_⟩, ⟨by decide, ?_⟩, ⟨by decide, ?_⟩⟩
  · exact C2_versionSpec_selects_newest.1 ⟨some "2.0.x", false⟩ exampleCandidates "2.0.x"
      ⟨v205, some v210, some [v210, v205, v201]⟩ rfl (by decide)
  · exact C2_versionSpec_selects_newest.2.1 ⟨some "9.9.x", false⟩ exampleCandidates "9.9.x"
      rfl (by decide) (by decide) (by decide)
  · exact C2_versionSpec_selects_newest.2.2.1 ⟨none, false⟩ exampleCandidates
      ⟨v210, some v210, some [v210, v205, v201]⟩ rfl (by decide)

/-- **C3**: resolving a candidate list with `prerelease: false` never returns
a prerelease Version — not as the current version, not as `latest`, and not
as a member of `versions` — because prerelease candidates are filtered out
before sorting and selection. -/
theorem C3_prerelease_never_returned :
    ∀ (spec : ResolveSpec) (vs : List Version) (r : FetchResult),
      spec.prerelease = false →
      fetchVersionCore spec (.list vs) = .ok r →
      r.version.prerelease = false ∧
      (∀ w, r.latest = some w → w.prerelease = false) ∧
      (∀ l, r.versions = some l → ∀ v ∈ l, v.prerelease = false) := by
  intro spec vs r hpre h
  obtain ⟨latest, rest, hs, hlat, hver, hcase⟩ := fetchVersionCore_list_ok h
  have hmem : ∀ v ∈ latest :: rest, v.prerelease = false := by
    intro v hvmem
    have : v ∈ validVersionsOf spec vs := mem_jsSortVersions.mp (hs ▸ hvmem)
    exact (mem_validVersionsOf this hpre).2
  refine ⟨?_, ?_, ?_⟩
  · rcases hcase with ⟨_, hvl⟩ | ⟨σ, _, hf⟩
    · rw [hvl]
      exact hmem latest (by simp)
    · exact hmem _ (List.mem_of_find?_eq_some hf)
  · intro w hw
    rw [hlat] at hw
    injection hw with hw'
    rw [← hw']
    exact hmem latest (by simp)
  · intro l hl
    rw [hver] at hl
    injection hl with hl'
    intro v hvmem
    exact hmem v (hl' ▸ hvmem)

/-- **C3** witness: a mixed candidate list (`1.3.0-rc.1` is a prerelease)
resolved with `prerelease: false`. -/
theorem C3_prerelease_never_returned_witness :
    ((⟨none, false⟩ : ResolveSpec).prerelease = false ∧
      fetchVersionCore ⟨none, false⟩ (.list prereleaseMix) =
        .ok ⟨.semantic ⟨⟨1, 2, 0, []⟩, "1.2.0", none, false⟩,
              some (.semantic ⟨⟨1, 2, 0, []⟩, "1.2.0", none, false⟩),
              some [.semantic ⟨⟨1, 2, 0, []⟩, "1.2.0", none, false⟩,
                    .semantic ⟨⟨1, 1, 0, []⟩, "1.1.0", none, false⟩]⟩) ∧
    ((⟨.semantic ⟨⟨1, 2, 0, []⟩, "1.2.0", none, false⟩,
        some (.semantic ⟨⟨1, 2, 0, []⟩, "1.2.0", none, false⟩),
        some [.semantic ⟨⟨1, 2, 0, []⟩, "1.2.0", none, false⟩,
              .semantic ⟨⟨1, 1, 0, []⟩, "1.1.0", none, false⟩]⟩ : FetchResult).version.prerelease = false ∧
      (∀ w, (⟨.semantic ⟨⟨1, 2, 0, []⟩, "1.2.0", none, false⟩,
        some (.semantic ⟨⟨1, 2, 0, []⟩, "1.2.0", none, false⟩),
        some [.semantic ⟨⟨1, 2, 0, []⟩, "1.2.0", none, false⟩,
              .semantic ⟨⟨1, 1, 0, []⟩, "1.1.0", none, false⟩]⟩ : FetchResult).latest = some w →
        w.prerelease = false) ∧
      (∀ l, (⟨.semantic ⟨⟨1, 2, 0, []⟩, "1.2.0", none, false⟩,
        some (.semantic ⟨⟨1, 2, 0, []⟩, "1.2.0", none, false⟩),
        some [.semantic ⟨⟨1, 2, 0, []⟩, "1.2.0", none, false⟩,
              .semantic ⟨⟨1, 1, 0, []⟩, "1.1.0", none, false⟩]⟩ : FetchResult).versions = some l →
        ∀ v ∈ l, v.prerelease = false)) := by
  refine ⟨⟨rfl, by decide⟩, ?_⟩
  exact C3_prerelease_never_returned ⟨none, false⟩ prereleaseMix
    ⟨.semantic ⟨⟨1, 2, 0, []⟩, "1.2.0", none, false⟩,
      some (.semantic ⟨⟨1, 2, 0, []⟩, "1.2.0", none, false⟩),
      some [.semantic ⟨⟨1, 2, 0, []⟩, "1.2.0", none, false⟩,
            .semantic ⟨⟨1, 1, 0, []⟩, "1.1.0", none, false⟩]⟩ rfl (by decide)

/-- **C4**: when the upstream resolution fails, the check result has a null
upstream, an *empty* outdated map (no usage can be outdated without an
upstream to compare against), and `errored` still lists exactly the usages
whose own resolution failed — per-usage outcomes are settled independently,
so one failure never hides the others. -/
theorem C4_upstream_failure_isolated :
    ∀ (name msg : String) (usageResults : List (String × Except String Version)),
      (checkVersionCore name (.error msg) usageResults).upstream = none ∧
      (checkVersionCore name (.error msg) usageResults).outdated = [] ∧
      (∀ k, k ∈ (checkVersionCore name (.error msg) usageResults).errored ↔
        ∃ e, (k, Except.error e) ∈ usageResults) := by
  intro name msg rs
  refine ⟨rfl, rfl, ?_⟩
  intro k
  simp only [checkVersionCore, List.mem_filterMap]
  constructor
  · rintro ⟨⟨k', res⟩, hmem, hsome⟩
    cases res with
    | ok v => simp at hsome
    | error e =>
      simp only [Option.some.injEq] at hsome
      exact ⟨e, hsome ▸ hmem⟩
  · rintro ⟨e, hmem⟩
    exact ⟨(k, .error e), hmem, rfl⟩

/-- **C5**: channel-variant equivalence is directional.  A Channel version is
equivalent to a Commit version exactly when the commit's full hash extends
the channel's embedded short hash; a Commit version is never equivalent to a
Channel version with a different `main` string (only `main` equality counts
in that direction). -/
theorem C5_equivalent_directional :
    (∀ (m c h : String), Version.equivalent (.nixpkgs m c) (.commit h) = true ↔
      ∃ t, h.data = c.data ++ t) ∧
    (∀ (h m c : String), h ≠ m →
      Version.equivalent (.commit h) (.nixpkgs m c) = false) := by
  constructor
  · intro m c h
    show strStartsWith h c = true ↔ _
    unfold strStartsWith
    rw [List.isPrefixOf_iff_prefix]
    constructor
    · rintro ⟨t, ht⟩
      exact ⟨t, ht.symm⟩
    · rintro ⟨t, ht⟩
      exact ⟨t, ht.symm⟩
  · intro h m c hne
    show decide (h = Version.main (.nixpkgs m c)) = false
    simp [Version.main, hne]

/-- **C5** witness: the short hash `a1b2c3` against the full commit hash, both
ways around. -/
theorem C5_equivalent_directional_witness :
    (Version.equivalent chanUpstreamVersion chanUsageCommit = true ∧
      ∃ t, ("a1b2c3dddddddddddddddddddddddddddddddddd" : String).data =
        ("a1b2c3" : String).data ++ t) ∧
    (("a1b2c3dddddddddddddddddddddddddddddddddd" : String) ≠ "nixpkgs-24.05.a1b2c3" ∧
      Version.equivalent chanUsageCommit chanUpstreamVersion = false) := by
  refine ⟨⟨by decide, ?_⟩, ⟨by decide, ?_⟩⟩
  · exact (C5_equivalent_directional.1 "nixpkgs-24.05.a1b2c3" "a1b2c3"
      "a1b2c3dddddddddddddddddddddddddddddddddd").mp (by decide)
  · exact C5_equivalent_directional.2 "a1b2c3dddddddddddddddddddddddddddddddddd"
      "nixpkgs-24.05.a1b2c3" "a1b2c3" (by decide)

/-- **C10**: `makeVersion` classifies by pattern with the nixpkgs channel
pattern taking precedence over the 40-hex commit pattern; for both of those
variants the result carries `prerelease = false` and no `app` string even
when explicit `app`/`prerelease` arguments are supplied, and only strings
matching neither pattern reach the (alone fallible) `SemanticVersion`
constructor. -/
theorem C10_makeVersion_classification :
    (∀ (main : String) (app : Option String) (pre : Option Bool) (c : String),
        nixpkgsExec main = some c →
        makeVersion main app pre = .ok (.nixpkgs main c) ∧
        (Version.nixpkgs main c).prerelease = false ∧
        (Version.nixpkgs main c).app = none) ∧
    (∀ (main : String) (app : Option String) (pre : Option Bool),
        nixpkgsExec main = none → commitTest main = true →
        makeVersion main app pre = .ok (.commit main) ∧
        (Version.commit main).prerelease = false ∧
        (Version.commit main).app = none) ∧
    (∀ (main : String) (app : Option String) (pre : Option Bool),
        nixpkgsExec main = none → commitTest main = false →
        makeVersion main app pre = (mkSemanticVersion main app pre).map Version.semantic) ∧
    (∀ (main : String) (app : Option String) (pre : Option Bool) (e : String),
        makeVersion main app pre = .error e →
        nixpkgsExec main = none ∧ commitTest main = false) := by
  refine ⟨?_, ?_, ?_, ?_⟩
  · intro main app pre c hnix
    unfold makeVersion
    rw [hnix]
    exact ⟨rfl, rfl, rfl⟩
  · intro main app pre hnix hcom
    unfold makeVersion
    rw [hnix, hcom]
    exact ⟨rfl, rfl, rfl⟩
  · intro main app pre hnix hcom
    unfold makeVersion
    rw [hnix, hcom]
    rfl
  · intro main app pre e herr
    unfold makeVersion at herr
    rcases hnix : nixpkgsExec main with _ | c
    · rw [hnix] at herr
      rcases hcom : commitTest main with _ | _
      · rw [hcom] at herr
        exact ⟨rfl, rfl⟩
      · rw [hcom] at herr
        simp at herr
    · rw [hnix] at herr
      simp at herr

/-- **C10** witness: a channel label with explicit `app`/`prerelease`
arguments, a 40-hex commit hash, and a plain semantic string. -/
theorem C10_makeVersion_classification_witness :
    (nixpkgsExec "nixpkgs-24.05.a1b2c3" = some "a1b2c3" ∧
      makeVersion "nixpkgs-24.05.a1b2c3" (some "ignored") (some true) =
        .ok (.nixpkgs "nixpkgs-24.05.a1b2c3" "a1b2c3") ∧
      (Version.nixpkgs "nixpkgs-24.05.a1b2c3" "a1b2c3").prerelease = false ∧
      (Version.nixpkgs "nixpkgs-24.05.a1b2c3" "a1b2c3").app = none) ∧
    (nixpkgsExec exampleSha = none ∧ commitTest exampleSha = true ∧
      makeVersion exampleSha (some "ignored") (some true) = .ok (.commit exampleSha) ∧
      (Version.commit exampleSha).prerelease = false ∧
      (Version.commit exampleSha).app = none) ∧
    (nixpkgsExec "1.2.3" = none ∧ commitTest "1.2.3" = false ∧
      makeVersion "1.2.3" none none =
        (mkSemanticVersion "1.2.3" none none).map Version.semantic) := by
  refine ⟨⟨by decide, ?_⟩, ⟨by decide, by decide, ?_⟩, ⟨by decide, by decide, ?_⟩⟩
  · exact (C10_makeVersion_classification.1 "nixpkgs-24.05.a1b2c3" (some "ignored")
      (some true) "a1b2c3" (by decide))
  · exact C10_makeVersion_classification.2.1 exampleSha (some "ignored")
      (some true) (by decide) (by decide)
  · exact C10_makeVersion_classification.2.2.1 "1.2.3" none none (by decide) (by decide)

/-- **C1** counterexample: a Channel upstream (`nixpkgs-24.05.a1b2c3`) and a
usage pinning the full commit `a1b2c3ddd…`.  The upstream-side directional
`equivalent` holds (the short hash prefixes the commit), so the claim says
the usage is up to date; the orchestrator nevertheless places it in
`outdated`, because it compares `main` strings and never calls
`equivalent`. -/
theorem C1_counterexample :
    Version.equivalent chanUpstream.version chanUsageCommit = true ∧
    makeVersion "nixpkgs-24.05.a1b2c3" none none = .ok chanUpstream.version ∧
    makeVersion "a1b2c3dddddddddddddddddddddddddddddddddd" none none = .ok chanUsageCommit ∧
    (checkVersionCore "dep" (.ok chanUpstream) [("prod", .ok chanUsageCommit)]).outdated =
      [("prod", chanUsageCommit)] := by
  exact ⟨by decide, by decide, by decide, by decide⟩

/-- **C1** amended: with a successful upstream, a usage key is in `outdated`
exactly when it resolved successfully and its version's `main` string differs
from the upstream current version's `main` — the orchestrator uses plain
`main` equality, not the directional `equivalent` test (which is defined on
versions but not consulted), and the reported value is the upstream's full
candidate with the same `main` when one exists. -/
theorem C1_outdated_iff_main_differs :
    ∀ (name : String) (u : FetchResult)
      (usageResults : List (String × Except String Version)) (k : String) (w : Version),
      ((k, w) ∈ (checkVersionCore name (.ok u) usageResults).outdated ↔
        ∃ v, (k, Except.ok v) ∈ usageResults ∧ v.main ≠ u.version.main ∧
          w = reportVersion u v) := by
  intro name u rs k w
  simp only [checkVersionCore, List.mem_filterMap]
  constructor
  · rintro ⟨⟨k1, v1⟩, ⟨⟨k0, res0⟩, hmem0, hf⟩, hg⟩
    cases res0 with
    | error e => simp at hf
    | ok v0 =>
      simp only [Option.some.injEq, Prod.mk.injEq] at hf
      by_cases hd : v1.main = u.version.main
      · rw [if_neg (by simpa using hd)] at hg
        exact absurd hg (by simp)
      · rw [if_pos (by simpa using hd)] at hg
        simp only [Option.some.injEq, Prod.mk.injEq] at hg
        refine ⟨v0, ?_, ?_, ?_⟩
        · rw [hf.1, hg.1] at hmem0
          exact hmem0
        · rw [hf.2]
          exact hd
        · rw [hf.2]
          exact hg.2.symm
  · rintro ⟨v, hmem, hd, hw⟩
    refine ⟨(k, v), ⟨(k, .ok v), hmem, rfl⟩, ?_⟩
    rw [if_pos (by simpa using hd)]
    rw [hw]

/-- **C7** counterexample: for the commit kind the adapter returns the
one-element list `[makeVersion sha]`, so `fetchVersion` takes the list path
and the returned `FetchResult` *does* carry a `versions` field (the singleton
list) — it is not absent as claimed. -/
theorem C7_counterexample :
    fetchGithubCommitVersions exampleSha = .ok [.commit exampleSha] ∧
    fetchVersionCore ⟨none, false⟩ (.list [.commit exampleSha]) =
      .ok ⟨.commit exampleSha, some (.commit exampleSha), some [.commit exampleSha]⟩ ∧
    (⟨.commit exampleSha, some (.commit exampleSha),
        some [.commit exampleSha]⟩ : FetchResult).versions ≠ none := by
  exact ⟨by decide, by decide, by decide⟩

/-- **C7** amended: the commit adapter yields a singleton candidate list, so
resolution returns that single version as both current and latest, with
`versions` *present* as the one-element sorted (trivially) filtered list; the
single-Version early return of `fetchVersion` (which would omit `versions`)
is unreachable in the current adapter set. -/
theorem C7_commit_resolution :
    ∀ (sha : String) (v : Version),
      fetchGithubCommitVersions sha = .ok [v] →
      v.prerelease = false →
      fetchVersionCore ⟨none, false⟩ (.list [v]) = .ok ⟨v, some v, some [v]⟩ := by
  intro sha v _ hpre
  simp [fetchVersionCore, validVersionsOf, hpre, jsSortVersions, orderedInsertV]

/-- **C7** witness: the 40-`a` sha. -/
theorem C7_commit_resolution_witness :
    fetchGithubCommitVersions exampleSha = .ok [.commit exampleSha] ∧
    (Version.commit exampleSha).prerelease = false ∧
    fetchVersionCore ⟨none, false⟩ (.list [.commit exampleSha]) =
      .ok ⟨.commit exampleSha, some (.commit exampleSha), some [.commit exampleSha]⟩ := by
  exact ⟨by decide, by decide,
    C7_commit_resolution exampleSha (.commit exampleSha) (by decide) (by decide)⟩

/-- **C8** counterexample: `"=1.2.3-alpha"` fails strict parsing (the `=` is
not part of the strict grammar), so the constructor coerces it and the
prerelease tag is dropped from the parsed value, while `clean` (which strips
`=`/`v` itself) still produces `"1.2.3-alpha"` as the canonical `main`.  The
resulting version and the strictly parsed `"1.2.3-alpha"` have equal `main`
strings, yet compare as 1 ≠ 0 (no-prerelease sorts above prerelease). -/
theorem C8_counterexample :
    mkSemanticVersion "=1.2.3-alpha" none none = .ok coercedAlpha ∧
    mkSemanticVersion "1.2.3-alpha" none none = .ok strictAlpha ∧
    coercedAlpha.main = strictAlpha.main ∧
    Version.compare (.semantic coercedAlpha) (.semantic strictAlpha) = 1 := by
  exact ⟨by decide, by decide, by decide, by decide⟩

/-- **C8** amended: when two Semantic versions tie in semantic ordering,
`compare` breaks the tie by lexicographic comparison of the canonical `main`
strings, and equal `main`s then give `compare = 0`.  (Equal `main`s alone do
not suffice: a coerced version can share its `main` with a strictly parsed
prerelease version while their semantic values differ.) -/
theorem C8_tie_breaks_by_main :
    ∀ a b : SemanticVersion,
      semverCompareInt a.semantic b.semantic = 0 →
      Version.compare (.semantic a) (.semantic b) = strCmpInt a.main b.main ∧
      (a.main = b.main → Version.compare (.semantic a) (.semantic b) = 0) := by
  intro a b htie
  have hc : Version.compare (.semantic a) (.semantic b) = strCmpInt a.main b.main := by
    show (if semverCompareInt a.semantic b.semantic ≠ 0 then
            semverCompareInt a.semantic b.semantic
          else strCmpInt a.main b.main) = _
    rw [htie]
    simp
  refine ⟨hc, ?_⟩
  intro hm
  rw [hc, hm]
  exact strCmpInt_self _

/-- **C8** witness: a strictly parsed `1.2.3` against the coercion of
`"1.2.3junk"` — a semantic tie broken by the `main` strings — and against the
clean of `"v1.2.3"`, a tie with equal `main`s giving `compare = 0`. -/
theorem C8_tie_breaks_by_main_witness :
    semverCompareInt (⟨1, 2, 3, []⟩ : SemVer) (⟨1, 2, 3, []⟩ : SemVer) = 0 ∧
    mkSemanticVersion "1.2.3junk" none none =
      .ok ⟨⟨1, 2, 3, []⟩, "1.2.3junk", none, false⟩ ∧
    Version.compare
        (.semantic ⟨⟨1, 2, 3, []⟩, "1.2.3", none, false⟩)
        (.semantic ⟨⟨1, 2, 3, []⟩, "1.2.3junk", none, false⟩) =
      strCmpInt "1.2.3" "1.2.3junk" ∧
    mkSemanticVersion "v1.2.3" none none =
      .ok ⟨⟨1, 2, 3, []⟩, "1.2.3", none, false⟩ ∧
    Version.compare
        (.semantic ⟨⟨1, 2, 3, []⟩, "1.2.3", none, false⟩)
        (.semantic ⟨⟨1, 2, 3, []⟩, "1.2.3", none, false⟩) = 0 := by
  refine ⟨by decide, by decide, ?_, by decide, ?_⟩
  · exact (C8_tie_breaks_by_main ⟨⟨1, 2, 3, []⟩, "1.2.3", none, false⟩
      ⟨⟨1, 2, 3, []⟩, "1.2.3junk", none, false⟩ (by decide)).1
  · exact (C8_tie_breaks_by_main ⟨⟨1, 2, 3, []⟩, "1.2.3", none, false⟩
      ⟨⟨1, 2, 3, []⟩, "1.2.3", none, false⟩ (by decide)).2 rfl

/-- One step of `replaceAll` with the pattern `"x"` and replacement `"xx"`. -/
theorem replaceAllX_cons (c : Char) (cs : List Char) :
    replaceAllChars (c :: cs) ['x'] ['x', 'x'] =
      if c = 'x' then 'x' :: 'x' :: replaceAllChars cs ['x'] ['x', 'x']
      else c :: replaceAllChars cs ['x'] ['x', 'x'] := by
  by_cases hc : c = 'x'
  · simp [replaceAllChars, replaceAllFuel, List.isPrefixOf, hc]
  · simp [replaceAllChars, replaceAllFuel, List.isPrefixOf, hc, Ne.symm hc]

theorem replaceAllX_length (cs : List Char) :
    cs.length ≤ (replaceAllChars cs ['x'] ['x', 'x']).length := by
  induction cs with
  | nil => simp [replaceAllChars, replaceAllFuel]
  | cons c cs ih =>
    rw [replaceAllX_cons]
    by_cases hc : c = 'x'
    · rw [if_pos hc]
      simp only [List.length_cons]
      omega
    · rw [if_neg hc]
      simp only [List.length_cons]
      omega

/-- Rewriting `x ↦ xx` over a string containing `x` keeps an `x` in the
result and strictly grows it: the substitution can never reach a fixpoint. -/
theorem replaceAllX_grows (cs : List Char) (h : 'x' ∈ cs) :
    'x' ∈ replaceAllChars cs ['x'] ['x', 'x'] ∧
    cs.length < (replaceAllChars cs ['x'] ['x', 'x']).length := by
  induction cs with
  | nil => simp at h
  | cons c cs ih =>
    rw [replaceAllX_cons]
    by_cases hc : c = 'x'
    · rw [if_pos hc]
      have := replaceAllX_length cs
      refine ⟨by simp, ?_⟩
      simp only [List.length_cons]
      omega
    · rw [if_neg hc]
      have h' : 'x' ∈ cs := by
        rcases List.mem_cons.mp h with h | h
        · exact absurd h.symm hc
        · exact h
      obtain ⟨hm, hl⟩ := ih h'
      refine ⟨List.mem_cons_of_mem _ hm, ?_⟩
      simp only [List.length_cons]
      omega

/-- A pass of the one-alias table `x ↦ xx`. -/
theorem aliasPass_loop (p : List Char) :
    aliasPass loopAliases p =
      (replaceAllChars p ['x'] ['x', 'x'],
        decide (replaceAllChars p ['x'] ['x', 'x'] ≠ p)) := by
  simp [aliasPass, loopAliases]

/-- Whatever the fuel, the loop is still running on any path containing `x`. -/
theorem loopAliases_stuck (fuel : Nat) :
    ∀ p, 'x' ∈ p → normalizePathsLocal fuel loopAliases p = none := by
  induction fuel with
  | zero =>
    intro p _
    rfl
  | succ n ih =>
    intro p hp
    have hg := replaceAllX_grows p hp
    have hne : replaceAllChars p ['x'] ['x', 'x'] ≠ p := by
      intro heq
      rw [heq] at hg
      exact absurd hg.2 (lt_irrefl _)
    unfold normalizePathsLocal
    simp only [aliasPass_loop, decide_eq_true hne, if_true]
    exact ih _ hg.1

/-- **C6** counterexample: on the alias table `{x ↦ xx}` and the input path
`"x"`, every pass changes the string (it strictly grows), so the
`do … while (changed)` loop of `normalizePaths` never terminates — the claim
that the fixpoint loop terminates for *every* alias table and input is
false. -/
theorem C6_counterexample : aliasLoopDiverges loopAliases ['x'] := by
  intro fuel
  exact loopAliases_stuck fuel ['x'] (by simp)

/-- More fuel never changes a loop result that was already reached. -/
theorem normalizePathsLocal_mono :
    ∀ (fuel fuel' : Nat) (aliases : List (String × String)) (p r : List Char),
      normalizePathsLocal fuel aliases p = some r → fuel ≤ fuel' →
      normalizePathsLocal fuel' aliases p = some r := by
  intro fuel
  induction fuel with
  | zero =>
    intro fuel' aliases p r h _
    exact absurd h (by simp [normalizePathsLocal])
  | succ n ih =>
    intro fuel' aliases p r h hle
    cases fuel' with
    | zero => omega
    | succ m =>
      unfold normalizePathsLocal at h ⊢
      rcases hap : aliasPass aliases p with ⟨p2, changed⟩
      simp only [hap] at h ⊢
      cases changed with
      | true =>
        simp only [if_true] at h ⊢
        exact ih m aliases p2 r h (by omega)
      | false => simpa using h

/-- **C6** amended: the alias fixpoint loop terminates with the fully
expanded path whenever the substitution process reaches a fixpoint — in
particular on the chained example table
`{~org ↦ /data/org, ~base ↦ ~org/shared}` it needs three passes and yields
`/data/org/shared/file.yaml` — but (per the counterexample) not for every
alias table: a self-referential alias never stabilises. -/
theorem C6_alias_fixpoint_example :
    ∀ fuel, 3 ≤ fuel →
      normalizePathsLocal fuel exampleAliases ("~base/file.yaml").data =
        some ("/data/org/shared/file.yaml").data := by
  intro fuel hf
  have h3 : normalizePathsLocal 3 exampleAliases ("~base/file.yaml").data =
      some ("/data/org/shared/file.yaml").data := by decide
  exact normalizePathsLocal_mono 3 fuel _ _ _ h3 hf

/-- **C6** witness: the example at the minimal sufficient bound. -/
theorem C6_alias_fixpoint_example_witness :
    3 ≤ 3 ∧
    normalizePathsLocal 3 exampleAliases ("~base/file.yaml").data =
      some ("/data/org/shared/file.yaml").data :=
  ⟨by decide, C6_alias_fixpoint_example 3 (by decide)⟩

/-- **C9** counterexample: the candidate list
`["2.0.0", "10.0.0", "1aaa…(40 hex)"]` (all producible by `makeVersion`)
makes the comparator cyclic — semantically `2.0.0 < 10.0.0`, but against the
Commit variant both fall back to string comparison, where
`"10.0.0" < "1aaa…" < "2.0.0"`.  Resolution succeeds, yet the returned
`versions` list is not descending-sorted (its head `2.0.0` is not ≥ the
later `10.0.0`). -/
theorem C9_counterexample :
    makeVersion "2.0.0" none none = .ok mixSemA ∧
    makeVersion "10.0.0" none none = .ok mixSemB ∧
    makeVersion mixHash none none = .ok mixCommit ∧
    fetchVersionCore ⟨none, false⟩ (.list mixedCandidates) =
      .ok ⟨mixSemA, some mixSemA, some [mixSemA, mixCommit, mixSemB]⟩ ∧
    ¬descSorted [mixSemA, mixCommit, mixSemB] := by
  refine ⟨by decide, by decide, by decide, by decide, ?_⟩
  intro h
  have := (List.pairwise_cons.mp h).1 mixSemB (by simp)
  exact absurd this (by decide)

/-- **C9** amended: whenever `fetchVersion` returns a result with `versions`
present, `latest` is its head, the current version is a member, and the list
is a permutation of the filtered candidates; it is moreover
descending-sorted whenever the comparator is transitive on those candidates
(e.g. lists that do not mix Semantic with Commit/Channel variants) — but not
in general, per the counterexample. -/
theorem C9_versions_sorted_structure :
    ∀ (spec : ResolveSpec) (vs : List Version) (r : FetchResult) (l : List Version),
      fetchVersionCore spec (.list vs) = .ok r →
      r.versions = some l →
      r.latest = l.head? ∧
      r.version ∈ l ∧
      l.Perm (validVersionsOf spec vs) ∧
      ((∀ a ∈ l, ∀ b ∈ l, ∀ c ∈ l,
          jsLeV a b = true → jsLeV b c = true → jsLeV a c = true) →
        descSorted l) := by
  intro spec vs r l h hl
  obtain ⟨latest, rest, hs, hlat, hver, hcase⟩ := fetchVersionCore_list_ok h
  rw [hver] at hl
  injection hl with hl'
  subst hl'
  refine ⟨by rw [hlat]; rfl, ?_, ?_, ?_⟩
  · rcases hcase with ⟨_, hvl⟩ | ⟨σ, _, hf⟩
    · rw [hvl]
      simp
    · exact List.mem_of_find?_eq_some hf
  · rw [← hs]
    exact jsSortVersions_perm _
  · intro htr
    have hsorted : descSorted (jsSortVersions (validVersionsOf spec vs)) := by
      refine pairwise_jsSortVersions _ ?_
      intro a ha b hb c hc
      exact htr a (hs ▸ mem_jsSortVersions.mpr ha) b (hs ▸ mem_jsSortVersions.mpr hb)
        c (hs ▸ mem_jsSortVersions.mpr hc)
    rw [hs] at hsorted
    exact hsorted

/-- **C9** witness: two Commit candidates (a transitive, string-ordered
list). -/
theorem C9_versions_sorted_structure_witness :
    (fetchVersionCore ⟨none, false⟩ (.list [.commit "aa", .commit "bb"]) =
      .ok ⟨.commit "bb", some (.commit "bb"), some [.commit "bb", .commit "aa"]⟩) ∧
    ((⟨.commit "bb", some (.commit "bb"),
        some [.commit "bb", .commit "aa"]⟩ : FetchResult).versions =
      some [.commit "bb", .commit "aa"]) ∧
    ((⟨.commit "bb", some (.commit "bb"),
        some [.commit "bb", .commit "aa"]⟩ : FetchResult).latest =
        ([.commit "bb", .commit "aa"] : List Version).head? ∧
      (⟨.commit "bb", some (.commit "bb"),
        some [.commit "bb", .commit "aa"]⟩ : FetchResult).version ∈
        ([.commit "bb", .commit "aa"] : List Version) ∧
      ([.commit "bb", .commit "aa"] : List Version).Perm
        (validVersionsOf ⟨none, false⟩ [.commit "aa", .commit "bb"]) ∧
      ((∀ a ∈ ([.commit "bb", .commit "aa"] : List Version),
          ∀ b ∈ ([.commit "bb", .commit "aa"] : List Version),
          ∀ c ∈ ([.commit "bb", .commit "aa"] : List Version),
          jsLeV a b = true → jsLeV b c = true → jsLeV a c = true) →
        descSorted [.commit "bb", .commit "aa"])) := by
  refine ⟨by decide, by decide, ?_⟩
  exact C9_versions_sorted_structure ⟨none, false⟩ [.commit "aa", .commit "bb"]
    ⟨.commit "bb", some (.commit "bb"), some [.commit "bb", .commit "aa"]⟩
    [.commit "bb", .commit "aa"] (by decide) rfl

end Versioncheck
